import Mathlib

/-!
# Verification of the AEWS water-quality notebook pipeline (notebooks 07b / 07d)

Shallow embedding of the decision logic of the AEWS notebooks: duplicate-date
resolution over a stack of rasters, water/land mask construction with
morphological dilation (`expand_mask`), the masked-reprojection loop with its
per-date destination reset, the valid-pixel retention test, and the archive
(netCDF) save guard.

Modelling conventions:
* a raster pixel is `Option ℚ`: `none` models numpy's NaN missing-value
  sentinel, `some v` a finite value (`np.isnan` becomes `Option.isNone`);
* numpy arrays become lists; 2-D boolean masks become `List (List Bool)`;
* the external GDAL reprojection call is an arbitrary function parameter
  (its implementation is out of scope, only the surrounding loop is embedded);
* real-valued quantities (thresholds, buffer radii) are rationals, and the
  Euclidean-distance test `pdist([[nmid,nmid],[ii,jj]]) <= npix` is encoded by
  comparing squares, which is equivalent for a nonnegative radius.
-/

namespace AEWS

/-- A pixel of a water-quality raster: `none` models numpy's NaN missing-value
sentinel, `some v` a finite value. -/
abbrev Pixel := Option ℚ

/-- A raster, flattened to a list of pixels (row-major). -/
abbrev Raster := List Pixel

/-- `np.sum(np.isnan(r))`: the number of missing (NaN) pixels of a raster. -/
def nanCount (r : Raster) : ℕ := r.countP (fun p => p.isNone)

/-- `tmp = np.where(np.isnan(base)); base[tmp] = other[tmp]`: fill the missing
pixels of `base` with the corresponding pixels of `other`. -/
def fillFrom (base other : Raster) : Raster :=
  List.zipWith (fun b o => match b with | none => o | some v => some v) base other

/-- numpy boolean indexing `xs[flags]`: keep the entries whose flag is `true`,
in order. -/
def boolIndex {α : Type} : List α → List Bool → List α
  | [], _ => []
  | _ :: _, [] => []
  | x :: xs, f :: fs => if f then x :: boolIndex xs fs else boolIndex xs fs

/-- `np.where(np.array(l) == v)[0]` followed by taking element `[0]`: the index
of the first entry of `l` equal to `v`, if any. -/
def firstEqIdx (v : String) : List String → Option ℕ
  | [] => none
  | d :: ds => if d = v then some 0 else (firstEqIdx v ds).map (· + 1)

/-- `dup_ind = np.where(strL5_dates[:ind] == strL5_dates[ind])[0]` followed by
`dup_ind = dup_ind[0]`: the first index before `ind` holding the same date
string as position `ind`. -/
def firstDupIdx (dates : List String) (ind : ℕ) : Option ℕ :=
  firstEqIdx (dates.getD ind "") (dates.take ind)

/-- One iteration of the duplicate-date removal loop of notebook 07b cell
In[6] (identical copy in the 07d part of the file).  The state is the pair
(current `WQ_TS_arr`, current `rem_ind`); `ind` is the loop index.  When a
duplicate of date `ind` exists at an earlier index `dup`, mark `ind` for
removal and resolve by missing-pixel count:
* `ind_n_nans == 0`: copy the current raster to the earlier position;
* `elif dup_n_nans != 0`: merge, filling the raster with fewer NaNs from the
  other and storing the result at the earlier position (the `else` branch
  `dup_n_nans >= ind_n_nans` first fills `WQ_TS_arr[ind]` in place, then
  copies it to the earlier position);
* otherwise (`dup_n_nans == 0`): keep the earlier raster unchanged. -/
def dedupBody (dates : List String) (st : List Raster × List Bool) (ind : ℕ) :
    List Raster × List Bool :=
  match firstDupIdx dates ind with
  | none => st
  | some dup =>
    let arrs := st.1
    let rem := st.2.set ind true
    let indR := arrs.getD ind []
    let dupR := arrs.getD dup []
    (if nanCount indR = 0 then arrs.set dup indR
     else if nanCount dupR ≠ 0 then
       (if nanCount dupR < nanCount indR then arrs.set dup (fillFrom dupR indR)
        else (arrs.set ind (fillFrom indR dupR)).set dup (fillFrom indR dupR))
     else arrs,
     rem)

/-- The whole duplicate-date removal cell: run the loop `for ind in
range(1, n_dates)` starting from `rem_ind = np.zeros(n_dates)`, then keep the
non-removed entries of the date list and of the raster stack
(`WQ_TS_arr[~rem_ind]`, `strL5_dates[~rem_ind]`). -/
def removeDuplicateDates (dates : List String) (arrs : List Raster) :
    List String × List Raster :=
  let n := dates.length
  let res := (List.range' 1 (n - 1)).foldl (dedupBody dates) (arrs, List.replicate n false)
  (boolIndex dates (res.2.map (fun b => !b)), boolIndex res.1 (res.2.map (fun b => !b)))

/-! ## Water-mask construction (`expand_mask` and the land threshold) -/

/-- `nmid = np.floor(npix)`. -/
def nmid (npix : ℚ) : ℤ := Int.floor npix

/-- `nmax = int(nmid*2 + 1)`. -/
def nmax (npix : ℚ) : ℤ := nmid npix * 2 + 1

/-- The double loop of `expand_mask` building the structuring element: for
`ii in range(nmax)`, `jj in range(ii, nmax)`, when the Euclidean distance from
the kernel center `(nmid, nmid)` to `(ii, jj)` is at most `npix`
(`pdist([[nmid,nmid],[ii,jj]]) <= npix`, encoded by comparing squares), both
`struc[ii,jj]` and `struc[jj,ii]` are set.  The list collects the set index
pairs. -/
def strucList (npix : ℚ) : List (ℤ × ℤ) :=
  (List.range (nmax npix).toNat).flatMap (fun ii =>
    (List.range' ii ((nmax npix).toNat - ii)).flatMap (fun jj =>
      if ((ii : ℚ) - nmid npix) ^ 2 + ((jj : ℚ) - nmid npix) ^ 2 ≤ npix ^ 2
      then [((ii : ℤ), (jj : ℤ)), ((jj : ℤ), (ii : ℤ))] else []))

/-- The structuring-element array: `struc[a, b]`. -/
def struc (npix : ℚ) (a b : ℤ) : Bool := decide ((a, b) ∈ strucList npix)

/-- A 2-D boolean mask array. -/
abbrev BMask := List (List Bool)

/-- Array access `m[i, j]`, `false` outside the array bounds. -/
def maskAt (m : BMask) (i j : ℤ) : Bool :=
  if 0 ≤ i ∧ 0 ≤ j then (m.getD i.toNat []).getD j.toNat false else false

/-- `ndimage.binary_dilation(mask_arr, structure=struc)` at output pixel
`(i, j)`: true iff some kernel entry `(a, b)` — of offset
`(a - nmid, b - nmid)` from the kernel center — covers a true input pixel
(the kernel built by `strucList` is symmetric about its center, so the
orientation of the offset is immaterial). -/
def binary_dilation (m : BMask) (npix : ℚ) (i j : ℤ) : Bool :=
  (strucList npix).any (fun p => maskAt m (i + (p.1 - nmid npix)) (j + (p.2 - nmid npix)))

/-- `expand_mask(mask_arr, npix)` at output pixel `(i, j)`. -/
def expand_mask (m : BMask) (npix : ℚ) (i j : ℤ) : Bool := binary_dilation m npix i j

/-- `land_mask = (WOFS_array <= water_mask_thr)` (cell In[10] of 07b and of
07d), over a flattened water-occurrence raster. -/
def land_mask (wofs : List ℚ) (thr : ℚ) : List Bool :=
  wofs.map (fun v => decide (v ≤ thr))

/-! ## Reprojection loop, validity filter, export guard -/

/-- `np.ones((WOFS_dx, WOFS_dy)) * np.nan`, flattened: an all-missing
destination buffer of `n` pixels. -/
def allMissing (n : ℕ) : Raster := List.replicate n none

/-- The per-date reprojection loop of cells In[15] (07b and 07d), restricted
to the destination buffer `gdalgeo_WQ_data`: at each date the buffer is
overwritten with an all-NaN array (`WriteArray(np.ones(..)*np.nan)`), then
`gdal.ReprojectImage` — modelled by the arbitrary function `reproject` —
writes the resample of the current source into it.  The buffer persists
across iterations (`st` threads it).  Returns the trace of buffer contents
passed to each resample call and the trace of buffer contents after each
resample. -/
def reproLoop (n : ℕ) (reproject : Raster → Raster → Raster) :
    Raster → List Raster → List Raster × List Raster
  | _, [] => ([], [])
  | _st, src :: rest =>
    let before := allMissing n
    let after := reproject before src
    let r := reproLoop n reproject after rest
    (before :: r.1, after :: r.2)

/-- `n_water_pix = np.sum(~land_mask)`: the number of water pixels. -/
def n_water_pix (land : List Bool) : ℕ := land.count false

/-- `WQ_array[land_mask] = np.nan`: null out the land pixels of a raster. -/
def applyLandMask (arr : Raster) (land : List Bool) : Raster :=
  List.zipWith (fun v l => if l then none else v) arr land

/-- `n_valid_pix = np.sum(~np.isnan(WQ_array))`: the number of non-missing
pixels. -/
def n_valid_pix (arr : Raster) : ℕ := arr.countP (fun p => p.isSome)

/-- The 07b retention test (cell In[15]):
`(100.0*n_valid_pix/n_water_pix) >= min_valid_pix_thr`, evaluated on the
masked raster. -/
def retain07b (arr : Raster) (land : List Bool) (thr : ℚ) : Bool :=
  decide (100 * (n_valid_pix (applyLandMask arr land) : ℚ) / (n_water_pix land : ℚ) ≥ thr)

/-- `pix_thr = np.sum(~land_mask) * min_valid_pix_thr / 100.0` (07d cell
In[15]). -/
def pix_thr (land : List Bool) (thr : ℚ) : ℚ := (n_water_pix land : ℚ) * thr / 100

/-- The 07d retention test: `np.sum(~np.isnan(WQ_array)) >= pix_thr`,
evaluated on the masked raster. -/
def retain07d (arr : Raster) (land : List Bool) (thr : ℚ) : Bool :=
  decide ((n_valid_pix (applyLandMask arr land) : ℚ) ≥ pix_thr land thr)

/-- The archive-mode save cell (07d cell In[16]): `if np.sum(valid_dates)>0:`
extract the valid dates from the stack and the per-date statistics and write
the netCDF dataset; otherwise nothing is written and nothing is produced.
The returned value models the written artifact (`none` = no file written). -/
def saveArchive (validDates : List Bool) (wq : List Raster)
    (minVals maxVals meanVals medVals : List ℚ) :
    Option (List Raster × List ℚ × List ℚ × List ℚ × List ℚ) :=
  if 0 < validDates.count true then
    some (boolIndex wq validDates, boolIndex minVals validDates,
          boolIndex maxVals validDates, boolIndex meanVals validDates,
          boolIndex medVals validDates)
  else none

/-- The duplicate-resolution rule exactly as the specification's claim states
it: later raster with zero missing pixels replaces the earlier; else an
earlier raster with zero missing pixels is kept; else if the later raster has
STRICTLY fewer missing pixels, the later raster filled from the earlier is
stored; else (including equal missing-pixel counts) the earlier raster filled
from the later is stored. -/
def specResolveClaimed (earlier later : Raster) : Raster :=
  if nanCount later = 0 then later
  else if nanCount earlier = 0 then earlier
  else if nanCount later < nanCount earlier then fillFrom later earlier
  else fillFrom earlier later

/-- The resolution rule amended to what the code does: the tie (equal
missing-pixel counts) goes with the later-raster-as-base branch, i.e. the
later raster is filled from the earlier one whenever the later raster has
fewer OR EQUALLY MANY missing pixels. -/
def specResolveAmended (earlier later : Raster) : Raster :=
  if nanCount later = 0 then later
  else if nanCount earlier = 0 then earlier
  else if nanCount later ≤ nanCount earlier then fillFrom later earlier
  else fillFrom earlier later

/-- The quantity named by the spec's validity filter: the number of
water-mask water pixels that hold a non-missing value (counted on the raster
and mask directly; the masked raster's valid pixels are shown below to agree
with it). -/
def waterValidCount (arr : Raster) (land : List Bool) : ℕ :=
  (arr.zip land).countP (fun p => p.1.isSome && !p.2)

/-- The action of one loop iteration on the `rem_ind` array alone: mark the
current index for removal when an earlier duplicate of its date exists.  Used
to analyse the removal flags of the loop. -/
def remStep (dates : List String) (rem : List Bool) (ind : ℕ) : List Bool :=
  if (firstDupIdx dates ind).isSome then rem.set ind true else rem

end AEWS

namespace AEWS

/-! ## Helper lemmas: list access, `firstEqIdx`, `fillFrom`, the loop body -/

theorem n_valid_applyLandMask (arr : Raster) (land : List Bool) :
    n_valid_pix (applyLandMask arr land) = waterValidCount arr land := by
  induction arr generalizing land with
  | nil => simp [n_valid_pix, applyLandMask, waterValidCount]
  | cons a as ih =>
    cases land with
    | nil => simp [n_valid_pix, applyLandMask, waterValidCount]
    | cons l ls =>
      cases l <;>
        simp [n_valid_pix, applyLandMask, waterValidCount, List.countP_cons,
          List.zipWith_cons_cons] at ih ⊢ <;>
        simpa [n_valid_pix, applyLandMask, waterValidCount] using ih ls

theorem getD_set_self {α : Type} (l : List α) (i : ℕ) (a d : α) (h : i < l.length) :
    (l.set i a).getD i d = a := by
  rw [List.getD_eq_getElem?_getD, List.getElem?_set_self h]
  rfl

theorem getD_set_ne {α : Type} (l : List α) (i j : ℕ) (a d : α) (h : i ≠ j) :
    (l.set i a).getD j d = l.getD j d := by
  rw [List.getD_eq_getElem?_getD, List.getElem?_set_ne h, ← List.getD_eq_getElem?_getD]

theorem getD_lt_of_getD_some (l : Raster) (k : ℕ) (a : ℚ)
    (h : l.getD k none = some a) : k < l.length := by
  by_contra hk
  rw [List.getD_eq_default _ _ (le_of_not_lt hk)] at h
  exact Option.noConfusion h

theorem firstEqIdx_eq_none_iff (v : String) (l : List String) :
    firstEqIdx v l = none ↔ ∀ x ∈ l, x ≠ v := by
  induction l with
  | nil => simp [firstEqIdx]
  | cons d ds ih =>
    by_cases hd : d = v
    · simp [firstEqIdx, hd]
    · simp [firstEqIdx, hd, Option.map_eq_none', ih]

theorem firstEqIdx_eq_some_iff (v : String) (l : List String) (j : ℕ) :
    firstEqIdx v l = some j ↔
      l[j]? = some v ∧ ∀ k, k < j → l[k]? ≠ some v := by
  induction l generalizing j with
  | nil => simp [firstEqIdx]
  | cons d ds ih =>
    by_cases hd : d = v
    · subst hd
      cases j with
      | zero => simp [firstEqIdx]
      | succ j' =>
        simp only [firstEqIdx, if_pos rfl]
        constructor
        · intro h
          exact absurd h (by simp)
        · rintro ⟨h1, h2⟩
          exact (h2 0 (Nat.succ_pos _) List.getElem?_cons_zero).elim
    · cases j with
      | zero =>
        simp only [firstEqIdx, if_neg hd]
        constructor
        · intro h
          obtain ⟨a, _, haa⟩ := Option.map_eq_some'.mp h
          exact absurd haa (by omega)
        · rintro ⟨h1, h2⟩
          rw [List.getElem?_cons_zero] at h1
          exact absurd (Option.some.inj h1) hd
      | succ j' =>
        rw [firstEqIdx, if_neg hd]
        constructor
        · intro h
          obtain ⟨a, ha, haa⟩ := Option.map_eq_some'.mp h
          have ha' : firstEqIdx v ds = some j' := by
            have : a = j' := by omega
            rw [← this]; exact ha
          obtain ⟨h1, h2⟩ := (ih j').mp ha'
          refine ⟨by simpa using h1, ?_⟩
          intro k hk
          cases k with
          | zero => simpa using hd
          | succ k' => simpa using h2 k' (by omega)
        · rintro ⟨h1, h2⟩
          have h1' : ds[j']? = some v := by simpa using h1
          have h2' : ∀ k, k < j' → ds[k]? ≠ some v := by
            intro k hk
            simpa using h2 (k + 1) (by omega)
          rw [(ih j').mpr ⟨h1', h2'⟩]
          rfl

theorem fillFrom_getD (base other : Raster) (k : ℕ)
    (hb : k < base.length) (ho : k < other.length) :
    (fillFrom base other).getD k none =
      match base.getD k none with
      | none => other.getD k none
      | some v => some v := by
  induction base generalizing other k with
  | nil => simp at hb
  | cons b bs ih =>
    cases other with
    | nil => simp at ho
    | cons o os =>
      cases k with
      | zero => cases b <;> simp [fillFrom]
      | succ k' =>
        have := ih os k' (by simpa using hb) (by simpa using ho)
        simpa [fillFrom] using this

theorem fillFrom_getD_some (base other : Raster) (k : ℕ) (a : ℚ)
    (hb : base.getD k none = some a) (ho : k < other.length) :
    (fillFrom base other).getD k none = some a := by
  rw [fillFrom_getD base other k (getD_lt_of_getD_some base k a hb) ho, hb]

theorem dedupBody_of_none (dates : List String) (st : List Raster × List Bool)
    (ind : ℕ) (h : firstDupIdx dates ind = none) : dedupBody dates st ind = st := by
  simp [dedupBody, h]

theorem dedupBody_snd (dates : List String) (arrs : List Raster) (rem : List Bool)
    (ind : ℕ) :
    (dedupBody dates (arrs, rem) ind).2 =
      if (firstDupIdx dates ind).isSome then rem.set ind true else rem := by
  rcases h : firstDupIdx dates ind with _ | dup <;> simp [dedupBody, h]

theorem dedupBody_stored (dates : List String) (arrs : List Raster) (rem : List Bool)
    (ind dup : ℕ) (h : firstDupIdx dates ind = some dup) (hlt : dup < arrs.length) :
    (dedupBody dates (arrs, rem) ind).1.getD dup [] =
      specResolveAmended (arrs.getD dup []) (arrs.getD ind []) := by
  simp only [dedupBody, h, specResolveAmended]
  by_cases h1 : nanCount (arrs.getD ind []) = 0
  · rw [if_pos h1, if_pos h1]
    exact getD_set_self _ _ _ _ hlt
  · by_cases h2 : nanCount (arrs.getD dup []) = 0
    · rw [if_neg h1, if_neg h1, if_neg (not_not_intro h2), if_pos h2]
    · by_cases h3 : nanCount (arrs.getD dup []) < nanCount (arrs.getD ind [])
      · have hns : ¬ nanCount (arrs.getD ind []) ≤ nanCount (arrs.getD dup []) := by omega
        rw [if_neg h1, if_neg h1, if_pos h2, if_pos h3, if_neg h2, if_neg hns]
        exact getD_set_self _ _ _ _ hlt
      · have hle : nanCount (arrs.getD ind []) ≤ nanCount (arrs.getD dup []) := by omega
        have hlt' : dup <
            (arrs.set ind (fillFrom (arrs.getD ind []) (arrs.getD dup []))).length := by
          rw [List.length_set]; exact hlt
        rw [if_neg h1, if_neg h1, if_pos h2, if_neg h3, if_neg h2, if_pos hle]
        exact getD_set_self _ _ _ _ hlt'

theorem getElem?_eq_some_getD {α : Type} (l : List α) (k : ℕ) (d : α)
    (h : k < l.length) : l[k]? = some (l.getD k d) := by
  rw [List.getElem?_eq_getElem h, List.getD_eq_getElem?_getD, List.getElem?_eq_getElem h]
  rfl

theorem firstDupIdx_spec (dates : List String) (ind dup : ℕ)
    (h : firstDupIdx dates ind = some dup) (hind : ind < dates.length) :
    dup < ind ∧ dates.getD dup "" = dates.getD ind "" ∧
      ∀ k, k < dup → dates.getD k "" ≠ dates.getD ind "" := by
  unfold firstDupIdx at h
  obtain ⟨h1, h2⟩ := (firstEqIdx_eq_some_iff _ _ _).mp h
  have hd : dup < ind := by
    obtain ⟨hh, _⟩ := List.getElem?_eq_some.mp h1
    rw [List.length_take] at hh
    omega
  rw [List.getElem?_take, if_pos hd] at h1
  have he : dates.getD dup "" = dates.getD ind "" := by
    have := getElem?_eq_some_getD dates dup "" (by omega)
    rw [this] at h1
    exact Option.some.inj h1
  refine ⟨hd, he, fun k hk hcontra => ?_⟩
  have hk' : (dates.take ind)[k]? = some (dates.getD ind "") := by
    rw [List.getElem?_take, if_pos (by omega : k < ind),
      getElem?_eq_some_getD dates k "" (by omega), hcontra]
  exact h2 k hk hk'

theorem set_getD_self {α : Type} (l : List α) (i : ℕ) (d : α) (h : i < l.length) :
    l.set i (l.getD i d) = l := by
  induction l generalizing i with
  | nil => simp at h
  | cons x xs ih =>
    cases i with
    | zero => simp
    | succ i' =>
      simp only [List.set_cons_succ, List.getD_cons_succ, List.cons.injEq, true_and]
      exact ih i' (by simpa using h)

theorem boolIndex_replicate_true {α : Type} (xs : List α) (m : ℕ)
    (h : xs.length ≤ m) : boolIndex xs (List.replicate m true) = xs := by
  induction xs generalizing m with
  | nil => cases m <;> rfl
  | cons x xs ih =>
    cases m with
    | zero => simp at h
    | succ m' =>
      simp only [List.replicate_succ, boolIndex, if_true]
      rw [ih m' (by simpa using h)]

theorem boolIndex_set_false {α : Type} (xs : List α) (m j : ℕ)
    (h : xs.length ≤ m) :
    boolIndex xs ((List.replicate m true).set j false) = xs.eraseIdx j := by
  induction xs generalizing m j with
  | nil => cases m <;> simp [boolIndex]
  | cons x xs ih =>
    cases m with
    | zero => simp at h
    | succ m' =>
      cases j with
      | zero =>
        simp only [List.replicate_succ, List.set_cons_zero, boolIndex, if_false,
          List.eraseIdx_cons_zero]
        exact boolIndex_replicate_true xs m' (by simpa using h)
      | succ j' =>
        simp only [List.replicate_succ, List.set_cons_succ, boolIndex, if_true,
          List.eraseIdx_cons_succ, List.cons.injEq, true_and]
        exact ih m' j' (by simpa using h)

theorem foldl_dedupBody_of_none (dates : List String) (inds : List ℕ)
    (st : List Raster × List Bool)
    (h : ∀ i ∈ inds, firstDupIdx dates i = none) :
    inds.foldl (dedupBody dates) st = st := by
  induction inds generalizing st with
  | nil => rfl
  | cons i tl ih =>
    rw [List.foldl_cons, dedupBody_of_none _ _ _ (h i (by simp))]
    exact ih st (fun x hx => h x (by simp [hx]))

/-! ## Helper lemmas for the removal flags and idempotence -/

theorem removeDuplicateDates_eq (dates : List String) (arrs : List Raster) :
    removeDuplicateDates dates arrs =
      (boolIndex dates ((((List.range' 1 (dates.length - 1)).foldl (dedupBody dates)
          (arrs, List.replicate dates.length false)).2).map (fun b => !b)),
       boolIndex (((List.range' 1 (dates.length - 1)).foldl (dedupBody dates)
          (arrs, List.replicate dates.length false)).1)
         ((((List.range' 1 (dates.length - 1)).foldl (dedupBody dates)
          (arrs, List.replicate dates.length false)).2).map (fun b => !b))) := rfl

theorem remStep_length (dates : List String) (rem : List Bool) (ind : ℕ) :
    (remStep dates rem ind).length = rem.length := by
  unfold remStep
  split <;> simp

theorem foldl_remStep_length (dates : List String) (inds : List ℕ) (rem : List Bool) :
    (inds.foldl (remStep dates) rem).length = rem.length := by
  induction inds generalizing rem with
  | nil => rfl
  | cons i tl ih => rw [List.foldl_cons, ih, remStep_length]

theorem foldl_dedupBody_snd_st (dates : List String) (inds : List ℕ)
    (st : List Raster × List Bool) :
    (inds.foldl (dedupBody dates) st).2 = inds.foldl (remStep dates) st.2 := by
  induction inds generalizing st with
  | nil => rfl
  | cons i tl ih =>
    rw [List.foldl_cons, List.foldl_cons, ih]
    congr 1
    obtain ⟨a, r⟩ := st
    rw [dedupBody_snd]
    rfl

theorem foldl_dedupBody_snd (dates : List String) (inds : List ℕ)
    (arrs : List Raster) (rem : List Bool) :
    (inds.foldl (dedupBody dates) (arrs, rem)).2 = inds.foldl (remStep dates) rem :=
  foldl_dedupBody_snd_st dates inds (arrs, rem)

theorem getD_replicate_false (n m : ℕ) :
    (List.replicate n false).getD m false = false := by
  rw [List.getD_eq_getElem?_getD, List.getElem?_replicate]
  split <;> rfl

theorem remStep_getD (dates : List String) (rem : List Bool) (ind m : ℕ) :
    (remStep dates rem ind).getD m false = true ↔
      (rem.getD m false = true ∨
        (m = ind ∧ m < rem.length ∧ (firstDupIdx dates ind).isSome = true)) := by
  unfold remStep
  by_cases hs : (firstDupIdx dates ind).isSome = true
  · rw [if_pos hs]
    by_cases hm : m = ind
    · subst hm
      by_cases hl : m < rem.length
      · rw [getD_set_self _ _ _ _ hl]
        simp [hl, hs]
      · rw [List.set_eq_of_length_le (le_of_not_lt hl),
          List.getD_eq_default _ _ (le_of_not_lt hl)]
        simp [hl]
    · rw [getD_set_ne _ _ _ _ _ (fun h => hm h.symm)]
      simp [hm]
  · rw [if_neg hs]
    simp [hs]

theorem foldl_remStep_getD (dates : List String) (inds : List ℕ) (rem : List Bool)
    (m : ℕ) :
    (inds.foldl (remStep dates) rem).getD m false = true ↔
      (rem.getD m false = true ∨
        (m ∈ inds ∧ m < rem.length ∧ (firstDupIdx dates m).isSome = true)) := by
  induction inds generalizing rem with
  | nil => simp
  | cons i tl ih =>
    rw [List.foldl_cons, ih, remStep_length, remStep_getD, List.mem_cons]
    constructor
    · rintro ((h | ⟨rfl, hl, hs⟩) | ⟨hm, hl, hs⟩)
      · exact Or.inl h
      · exact Or.inr ⟨Or.inl rfl, hl, hs⟩
      · exact Or.inr ⟨Or.inr hm, hl, hs⟩
    · rintro (h | ⟨rfl | hm, hl, hs⟩)
      · exact Or.inl (Or.inl h)
      · exact Or.inl (Or.inr ⟨rfl, hl, hs⟩)
      · exact Or.inr ⟨hm, hl, hs⟩

theorem kept_flag_iff (dates : List String) (arrs : List Raster) (m : ℕ)
    (hm : m < dates.length) :
    (((List.range' 1 (dates.length - 1)).foldl (dedupBody dates)
        (arrs, List.replicate dates.length false)).2).getD m false = true ↔
      (1 ≤ m ∧ (firstDupIdx dates m).isSome = true) := by
  rw [foldl_dedupBody_snd, foldl_remStep_getD]
  constructor
  · rintro (h | ⟨hmem, hl, hs⟩)
    · rw [getD_replicate_false] at h
      exact absurd h (by simp)
    · rw [List.mem_range'_1] at hmem
      exact ⟨by omega, hs⟩
  · rintro ⟨h1, hs⟩
    refine Or.inr ⟨List.mem_range'_1.mpr ⟨h1, by omega⟩, by simpa using hm, hs⟩

theorem mem_of_getElem?_some {α : Type} {l : List α} {i : ℕ} {a : α}
    (h : l[i]? = some a) : a ∈ l := by
  obtain ⟨hlt, rfl⟩ := List.getElem?_eq_some.mp h
  exact List.getElem_mem hlt

theorem mem_boolIndex {α : Type} (xs : List α) (fs : List Bool) (y : α)
    (h : y ∈ boolIndex xs fs) :
    ∃ l : ℕ, xs[l]? = some y ∧ fs[l]? = some true := by
  induction xs generalizing fs with
  | nil => simp [boolIndex] at h
  | cons x xs ih =>
    cases fs with
    | nil => simp [boolIndex] at h
    | cons f fs =>
      cases f with
      | false =>
        obtain ⟨l, h1, h2⟩ := ih fs (by simpa [boolIndex] using h)
        exact ⟨l + 1, by simpa using h1, by simpa using h2⟩
      | true =>
        have h' : y ∈ x :: boolIndex xs fs := h
        rcases List.mem_cons.mp h' with rfl | hmem
        · exact ⟨0, List.getElem?_cons_zero, List.getElem?_cons_zero⟩
        · obtain ⟨l, h1, h2⟩ := ih fs hmem
          exact ⟨l + 1, by simpa using h1, by simpa using h2⟩

theorem nodup_boolIndex {α : Type} (xs : List α) (fs : List Bool)
    (h : ∀ (k l : ℕ) (yk yl : α), k < l → xs[k]? = some yk → xs[l]? = some yl →
      fs[k]? = some true → fs[l]? = some true → yk ≠ yl) :
    (boolIndex xs fs).Nodup := by
  induction xs generalizing fs with
  | nil => simp [boolIndex]
  | cons x xs ih =>
    cases fs with
    | nil => simp [boolIndex]
    | cons f fs =>
      have hshift : ∀ (k l : ℕ) (yk yl : α), k < l → xs[k]? = some yk →
          xs[l]? = some yl → fs[k]? = some true → fs[l]? = some true → yk ≠ yl := by
        intro k l yk yl hkl h1 h2 h3 h4
        exact h (k + 1) (l + 1) yk yl (by omega) (by simpa using h1)
          (by simpa using h2) (by simpa using h3) (by simpa using h4)
      cases f with
      | false => exact ih fs hshift
      | true =>
        show (x :: boolIndex xs fs).Nodup
        rw [List.nodup_cons]
        refine ⟨fun hx => ?_, ih fs hshift⟩
        obtain ⟨l, h1, h2⟩ := mem_boolIndex xs fs x hx
        exact h 0 (l + 1) x x (by omega) List.getElem?_cons_zero
          (by simpa using h1) List.getElem?_cons_zero (by simpa using h2) rfl

theorem boolIndex_length_le_count {α : Type} (xs : List α) (fs : List Bool) :
    (boolIndex xs fs).length ≤ fs.count true := by
  induction xs generalizing fs with
  | nil => simp [boolIndex]
  | cons x xs ih =>
    cases fs with
    | nil => simp [boolIndex]
    | cons f fs =>
      cases f with
      | false =>
        have := ih fs
        simp [boolIndex, List.count_cons]
        omega
      | true =>
        have := ih fs
        simp [boolIndex, List.count_cons]
        omega

theorem boolIndex_length_eq_count {α : Type} (xs : List α) (fs : List Bool)
    (h : fs.length ≤ xs.length) : (boolIndex xs fs).length = fs.count true := by
  induction xs generalizing fs with
  | nil =>
    cases fs with
    | nil => simp [boolIndex]
    | cons f fs => simp at h
  | cons x xs ih =>
    cases fs with
    | nil => simp [boolIndex]
    | cons f fs =>
      cases f with
      | false =>
        have := ih fs (by simpa using h)
        simp [boolIndex, List.count_cons]
        omega
      | true =>
        have := ih fs (by simpa using h)
        simp [boolIndex, List.count_cons]
        omega

theorem firstDupIdx_eq_none_of_nodup (dates : List String) (hnd : dates.Nodup)
    (ind : ℕ) (hind : ind < dates.length) : firstDupIdx dates ind = none := by
  unfold firstDupIdx
  apply (firstEqIdx_eq_none_iff _ _).mpr
  intro x hx hxv
  obtain ⟨kn, hk⟩ := List.getElem?_of_mem hx
  have hkn : kn < ind := by
    obtain ⟨hlt, _⟩ := List.getElem?_eq_some.mp hk
    rw [List.length_take] at hlt
    omega
  rw [List.getElem?_take, if_pos hkn] at hk
  have hind' : dates[ind]? = some (dates.getD ind "") :=
    getElem?_eq_some_getD _ _ _ hind
  subst hxv
  exact (List.nodup_iff_getElem?_ne_getElem?.mp hnd kn ind hkn hind)
    (hk.trans hind'.symm)

theorem removeDuplicateDates_of_nodup (dates : List String) (arrs : List Raster)
    (hnd : dates.Nodup) (hle : arrs.length ≤ dates.length) :
    removeDuplicateDates dates arrs = (dates, arrs) := by
  rw [removeDuplicateDates_eq,
    foldl_dedupBody_of_none dates _ _ (fun x hx => by
      rw [List.mem_range'_1] at hx
      exact firstDupIdx_eq_none_of_nodup dates hnd x (by omega))]
  show (boolIndex dates ((List.replicate dates.length false).map (fun b => !b)),
    boolIndex arrs ((List.replicate dates.length false).map (fun b => !b))) = _
  rw [List.map_replicate]
  simp only [Bool.not_false]
  rw [boolIndex_replicate_true dates _ (le_refl _),
    boolIndex_replicate_true arrs _ hle]

theorem nodup_dedup_dates (dates : List String) (arrs : List Raster) :
    (removeDuplicateDates dates arrs).1.Nodup := by
  rw [removeDuplicateDates_eq]
  apply nodup_boolIndex
  intro k l yk yl hkl h1 h2 h3 h4 hcontra
  have hln : l < dates.length := (List.getElem?_eq_some.mp h2).1
  -- position l is kept, so its removal flag is false
  have hflag : (((List.range' 1 (dates.length - 1)).foldl (dedupBody dates)
      (arrs, List.replicate dates.length false)).2).getD l false = false := by
    rw [List.getElem?_map] at h4
    obtain ⟨b, hb, hbt⟩ := Option.map_eq_some'.mp h4
    have hbf : b = false := by
      cases b
      · rfl
      · simp at hbt
    subst hbf
    rw [List.getD_eq_getElem?_getD, hb]
    rfl
  -- but l has an earlier duplicate at k, so its flag must be true
  have hyl : yl = dates.getD l "" := by
    have := getElem?_eq_some_getD dates l "" hln
    rw [h2] at this
    exact (Option.some.inj this.symm).symm
  have hsome : (firstDupIdx dates l).isSome = true := by
    rcases hfd : firstDupIdx dates l with _ | d
    · exfalso
      unfold firstDupIdx at hfd
      have hall := (firstEqIdx_eq_none_iff _ _).mp hfd
      have hkmem : yk ∈ dates.take l := by
        apply mem_of_getElem?_some (i := k)
        rw [List.getElem?_take, if_pos hkl]
        exact h1
      exact hall yk hkmem (by rw [hcontra, hyl])
    · rfl
  have := (kept_flag_iff dates arrs l hln).mpr ⟨by omega, hsome⟩
  rw [hflag] at this
  exact absurd this (by simp)

end AEWS

namespace AEWS

/-- C8: in the per-date reprojection loop, whatever the behavior of the
external `ReprojectImage` call and whatever the destination buffer held
initially, the buffer passed to every resample call is the all-missing array,
and consequently each date's reprojected result is a function of that date's
source alone — no stale value from a previous iteration can leak through. -/
theorem reproLoop_always_reset (n : ℕ) (reproject : Raster → Raster → Raster)
    (st : Raster) (srcs : List Raster) :
    (reproLoop n reproject st srcs).1 = srcs.map (fun _ => allMissing n) ∧
    (reproLoop n reproject st srcs).2 = srcs.map (reproject (allMissing n)) := by
  induction srcs generalizing st with
  | nil => simp [reproLoop]
  | cons s rest ih =>
    simpa [reproLoop] using ih (reproject (allMissing n) s)

/-- C9: in archive-export mode the netCDF write is performed (an artifact is
produced) if and only if at least one date was retained by the validity
filter. -/
theorem archive_write_iff_retained (vd : List Bool) (wq : List Raster)
    (mins maxs means meds : List ℚ) :
    (saveArchive vd wq mins maxs means meds).isSome = true ↔ 0 < vd.count true := by
  unfold saveArchive
  split <;> simp_all

/-- C10: a pixel of the water-occurrence raster is classified as land exactly
when its occurrence value is less than or equal to the threshold; in
particular a pixel exactly at the threshold is land. -/
theorem land_mask_nonstrict (wofs : List ℚ) (thr : ℚ) (k : ℕ)
    (hk : k < wofs.length) :
    ((land_mask wofs thr).getD k false = true ↔ wofs.getD k 0 ≤ thr) ∧
    (wofs.getD k 0 = thr → (land_mask wofs thr).getD k false = true) := by
  have hmap : (land_mask wofs thr).getD k false
      = decide (wofs.getD k 0 ≤ thr) := by
    simp [land_mask, List.getD, List.getElem?_map, List.getElem?_eq_getElem hk]
  constructor
  · rw [hmap]; exact decide_eq_true_iff
  · intro h
    rw [hmap, h]
    simp

/-- Witness for C10 at a concrete raster: occurrence 50 with threshold 50 is
classified land. -/
theorem land_mask_nonstrict_witness :
    (land_mask [30, 50] 50).getD 1 false = true :=
  (land_mask_nonstrict [30, 50] 50 1 (by decide)).2 (by decide)

/-- C7: the retention tests of both notebook variants succeed exactly when
the fraction of water pixels holding a non-missing value in the masked raster
meets or exceeds the threshold; a date exactly at the threshold is retained
and one with a strictly smaller fraction (e.g. one valid pixel fewer) is
excluded. -/
theorem validity_filter_iff (arr : Raster) (land : List Bool) (thr : ℚ)
    (hw : 0 < n_water_pix land) :
    (retain07b arr land thr = true ↔
      thr ≤ 100 * (waterValidCount arr land : ℚ) / (n_water_pix land : ℚ)) ∧
    (retain07d arr land thr = true ↔
      thr ≤ 100 * (waterValidCount arr land : ℚ) / (n_water_pix land : ℚ)) ∧
    (100 * (waterValidCount arr land : ℚ) / (n_water_pix land : ℚ) = thr →
      retain07b arr land thr = true ∧ retain07d arr land thr = true) ∧
    (100 * (waterValidCount arr land : ℚ) / (n_water_pix land : ℚ) < thr →
      retain07b arr land thr = false ∧ retain07d arr land thr = false) := by
  have hw' : (0 : ℚ) < (n_water_pix land : ℚ) := by exact_mod_cast hw
  have hb : retain07b arr land thr = true ↔
      thr ≤ 100 * (waterValidCount arr land : ℚ) / (n_water_pix land : ℚ) := by
    unfold retain07b
    rw [n_valid_applyLandMask, decide_eq_true_iff, ge_iff_le]
  have hd : retain07d arr land thr = true ↔
      thr ≤ 100 * (waterValidCount arr land : ℚ) / (n_water_pix land : ℚ) := by
    unfold retain07d pix_thr
    rw [n_valid_applyLandMask, decide_eq_true_iff, ge_iff_le,
      div_le_iff₀ (by norm_num : (0 : ℚ) < 100), le_div_iff₀ hw']
    constructor <;> intro h <;> nlinarith
  refine ⟨hb, hd, fun h => ⟨hb.mpr h.ge, hd.mpr h.ge⟩, fun h => ⟨?_, ?_⟩⟩
  · rcases Bool.eq_false_or_eq_true (retain07b arr land thr) with h' | h'
    · exact absurd (hb.mp h') (not_le.mpr h)
    · exact h'
  · rcases Bool.eq_false_or_eq_true (retain07d arr land thr) with h' | h'
    · exact absurd (hd.mp h') (not_le.mpr h)
    · exact h'

/-- Witness for C7: with 4 water pixels, 2 valid pixels and a 50% threshold
the fraction is exactly at the threshold and the date is retained by both
variants; with a 60% threshold it is excluded by both. -/
theorem validity_filter_iff_witness :
    (retain07b [some 1, some 2, none, none] [false, false, false, false] 50 = true ∧
      retain07d [some 1, some 2, none, none] [false, false, false, false] 50 = true) ∧
    (retain07b [some 1, some 2, none, none] [false, false, false, false] 60 = false ∧
      retain07d [some 1, some 2, none, none] [false, false, false, false] 60 = false) := by
  have e2 : waterValidCount [some 1, some 2, none, none] [false, false, false, false] = 2 := rfl
  have e4 : n_water_pix [false, false, false, false] = 4 := rfl
  exact ⟨(validity_filter_iff [some 1, some 2, none, none] [false, false, false, false] 50
      (by decide)).2.2.1 (by rw [e2, e4]; norm_num),
    (validity_filter_iff [some 1, some 2, none, none] [false, false, false, false] 60
      (by decide)).2.2.2 (by rw [e2, e4]; norm_num)⟩

/-- C1 counterexample: on two rasters sharing a date with EQUAL missing-pixel
counts (earlier `[1, NaN]`, later `[2, NaN]`) the code stores the later
raster filled from the earlier (`[2, NaN]`), whereas the claim's four-way
rule ("else, including equal missing-pixel counts, the earlier raster filled
from the later") would store `[1, NaN]`. -/
theorem dedup_rule_counterexample :
    (removeDuplicateDates ["a", "a"] [[some 1, none], [some 2, none]]).2
        = [[some 2, none]] ∧
    specResolveClaimed [some 1, none] [some 2, none] = [some 1, none] ∧
    ([[some (2 : ℚ), none]] : List Raster) ≠ [[some 1, none]] := by
  refine ⟨rfl, rfl, by decide⟩

/-- C1 (amended): every duplicate-date pair is resolved against the first
occurrence of the date (the matched index is strictly earlier, holds the same
date, and no index before it holds that date), the resolved raster — computed
by the four-way rule with the tie (equal missing-pixel counts) going to the
later-raster-as-base branch — is stored at the first occurrence's position,
and the later entry is marked for removal. -/
theorem dedup_resolution_rule (dates : List String) (arrs : List Raster)
    (rem : List Bool) (ind dup : ℕ)
    (h : firstDupIdx dates ind = some dup)
    (hind : ind < dates.length) (hlen : arrs.length = dates.length) :
    dup < ind ∧
    dates.getD dup "" = dates.getD ind "" ∧
    (∀ k, k < dup → dates.getD k "" ≠ dates.getD ind "") ∧
    (dedupBody dates (arrs, rem) ind).1.getD dup []
        = specResolveAmended (arrs.getD dup []) (arrs.getD ind []) ∧
    (dedupBody dates (arrs, rem) ind).2 = rem.set ind true := by
  obtain ⟨hd, he, hf⟩ := firstDupIdx_spec dates ind dup h hind
  refine ⟨hd, he, hf, ?_, ?_⟩
  · exact dedupBody_stored dates arrs rem ind dup h (by omega)
  · rw [dedupBody_snd, h]
    rfl

/-- Witness for C1 at a concrete duplicate pair: for dates `["a","a"]` with
earlier raster `[1, NaN]` and later `[NaN, NaN]`, the loop body stores the
amended-rule resolution at position 0 and marks position 1 removed. -/
theorem dedup_resolution_rule_witness :
    (dedupBody ["a", "a"] ([[some 1, none], [none, none]], [false, false]) 1).1.getD 0 []
        = specResolveAmended [some 1, none] [none, none] ∧
    (dedupBody ["a", "a"] ([[some 1, none], [none, none]], [false, false]) 1).2
        = [false, true] := by
  have h := dedup_resolution_rule ["a", "a"] [[some 1, none], [none, none]]
    [false, false] 1 0 (by decide) (by decide) (by decide)
  exact ⟨h.2.2.2.1, h.2.2.2.2⟩

/-- C2 counterexample: a merged duplicate pair (both rasters with one missing
pixel each, earlier `[5, NaN]`, later `[7, NaN]`) stores `[7, NaN]`: at pixel
0, where both rasters hold a non-missing value, the merged output holds the
LATER raster's value 7, not the earlier one's value 5. -/
theorem merge_priority_counterexample :
    nanCount [some (5 : ℚ), none] ≠ 0 ∧
    nanCount [some (7 : ℚ), none] ≠ 0 ∧
    (removeDuplicateDates ["x", "x"] [[some 5, none], [some 7, none]]).2
        = [[some 7, none]] ∧
    [some (5 : ℚ), none].getD 0 none = some 5 ∧
    [some (7 : ℚ), none].getD 0 none = some 7 ∧
    (([[some (7 : ℚ), none]] : List Raster).getD 0 []).getD 0 none ≠ some 5 := by
  refine ⟨by decide, by decide, rfl, rfl, rfl, by decide⟩

/-- C2 (amended): in a gap-filling merge of a duplicate-date pair (both
rasters holding at least one missing pixel), at every pixel where both
rasters hold a non-missing value the raster stored at the first occurrence's
position holds the EARLIER raster's value when the earlier raster has
strictly fewer missing pixels, and the LATER raster's value otherwise
(including equal missing-pixel counts). -/
theorem dedup_merge_pixel_priority (dates : List String) (arrs : List Raster)
    (rem : List Bool) (ind dup k : ℕ) (a b : ℚ)
    (h : firstDupIdx dates ind = some dup)
    (hind : ind < dates.length) (hlen : arrs.length = dates.length)
    (hdup0 : nanCount (arrs.getD dup []) ≠ 0)
    (hind0 : nanCount (arrs.getD ind []) ≠ 0)
    (ha : (arrs.getD dup []).getD k none = some a)
    (hb : (arrs.getD ind []).getD k none = some b) :
    ((dedupBody dates (arrs, rem) ind).1.getD dup []).getD k none =
      some (if nanCount (arrs.getD dup []) < nanCount (arrs.getD ind []) then a else b) := by
  have hdl : dup < arrs.length := by
    have := (firstDupIdx_spec dates ind dup h hind).1
    omega
  rw [dedupBody_stored dates arrs rem ind dup h hdl]
  unfold specResolveAmended
  rw [if_neg hind0, if_neg hdup0]
  by_cases h3 : nanCount (arrs.getD dup []) < nanCount (arrs.getD ind [])
  · have hns : ¬ nanCount (arrs.getD ind []) ≤ nanCount (arrs.getD dup []) := by omega
    rw [if_neg hns, if_pos h3]
    exact fillFrom_getD_some _ _ _ _ ha (getD_lt_of_getD_some _ _ _ hb)
  · have hle : nanCount (arrs.getD ind []) ≤ nanCount (arrs.getD dup []) := by omega
    rw [if_pos hle, if_neg h3]
    exact fillFrom_getD_some _ _ _ _ hb (getD_lt_of_getD_some _ _ _ ha)

/-- Witness for C2 at a concrete merged pair: earlier `[9, NaN, NaN]` (two
missing) and later `[4, 6, NaN]` (one missing) share pixel 0; the later has
strictly fewer missing pixels, so the stored raster holds the later's value 4
there. -/
theorem dedup_merge_pixel_priority_witness :
    ((dedupBody ["d", "d"] ([[some 9, none, none], [some 4, some 6, none]],
        [false, false]) 1).1.getD 0 []).getD 0 none = some 4 := by
  have h := dedup_merge_pixel_priority ["d", "d"]
    [[some 9, none, none], [some 4, some 6, none]] [false, false] 1 0 0 9 4
    (by decide) (by decide) (by decide) (by decide) (by decide) (by decide) (by decide)
  simpa using h

/-- C3: if exactly two entries (positions `i < j`) share a date and exactly
one of the two rasters is entirely free of missing pixels, deduplication
returns the input with that fully valid raster stored at the earlier
position `i` and the later entry `j` removed. -/
theorem dedup_exactly_one_fully_valid (dates : List String) (arrs : List Raster)
    (i j : ℕ)
    (hlen : arrs.length = dates.length)
    (hij : i < j) (hj : j < dates.length)
    (heq : dates.getD i "" = dates.getD j "")
    (huniq : ∀ l, l < dates.length → ∀ k, k < l →
      dates.getD k "" = dates.getD l "" → k = i ∧ l = j)
    (hxor : (nanCount (arrs.getD i []) = 0 ∧ nanCount (arrs.getD j []) ≠ 0) ∨
            (nanCount (arrs.getD i []) ≠ 0 ∧ nanCount (arrs.getD j []) = 0)) :
    removeDuplicateDates dates arrs =
      (dates.eraseIdx j,
       (arrs.set i (if nanCount (arrs.getD j []) = 0 then arrs.getD j []
                    else arrs.getD i [])).eraseIdx j) := by
  have hn1 : 1 ≤ j := by omega
  -- every index other than j finds no earlier duplicate
  have ha : ∀ ind, ind < dates.length → ind ≠ j → firstDupIdx dates ind = none := by
    intro ind hind hne
    rcases hfd : firstDupIdx dates ind with _ | k
    · rfl
    · exfalso
      obtain ⟨hk, he', _⟩ := firstDupIdx_spec dates ind k hfd hind
      exact hne (huniq ind hind k hk he').2
  -- index j finds exactly i
  have hb : firstDupIdx dates j = some i := by
    unfold firstDupIdx
    apply (firstEqIdx_eq_some_iff _ _ _).mpr
    constructor
    · rw [List.getElem?_take, if_pos hij,
        getElem?_eq_some_getD dates i "" (by omega), heq]
    · intro k hk hcon
      rw [List.getElem?_take, if_pos (by omega : k < j),
        getElem?_eq_some_getD dates k "" (by omega)] at hcon
      have := (huniq j hj k (by omega) (Option.some.inj hcon)).1
      omega
  -- the loop reduces to the single body application at j
  have hsplit : List.range' 1 (dates.length - 1) =
      List.range' 1 (j - 1) ++ j :: List.range' (j + 1) (dates.length - 1 - j) := by
    have h2 : (dates.length - j) + (j - 1) = dates.length - 1 := by omega
    have h3 : 1 + 1 * (j - 1) = j := by omega
    have h1 : dates.length - j = (dates.length - 1 - j) + 1 := by omega
    calc List.range' 1 (dates.length - 1)
        = List.range' 1 ((dates.length - j) + (j - 1)) := by rw [h2]
      _ = List.range' 1 (j - 1) ++ List.range' (1 + 1 * (j - 1)) (dates.length - j) :=
          (List.range'_append 1 (j - 1) (dates.length - j) 1).symm
      _ = List.range' 1 (j - 1) ++ List.range' j (dates.length - j) := by rw [h3]
      _ = List.range' 1 (j - 1) ++ (j :: List.range' (j + 1) (dates.length - 1 - j)) := by
          rw [h1, List.range'_succ]
  have hfold : (List.range' 1 (dates.length - 1)).foldl (dedupBody dates)
      (arrs, List.replicate dates.length false)
      = dedupBody dates (arrs, List.replicate dates.length false) j := by
    rw [hsplit, List.foldl_append,
      foldl_dedupBody_of_none dates (List.range' 1 (j - 1)) _ (fun x hx => by
        rw [List.mem_range'_1] at hx
        exact ha x (by omega) (by omega)),
      List.foldl_cons]
    exact foldl_dedupBody_of_none dates (List.range' (j + 1) (dates.length - 1 - j)) _
      (fun x hx => by
        rw [List.mem_range'_1] at hx
        exact ha x (by omega) (by omega))
  -- evaluate the body at j
  have hil : i < arrs.length := by omega
  have hbody : dedupBody dates (arrs, List.replicate dates.length false) j =
      (arrs.set i (if nanCount (arrs.getD j []) = 0 then arrs.getD j []
                   else arrs.getD i []),
       (List.replicate dates.length false).set j true) := by
    simp only [dedupBody, hb]
    rcases hxor with ⟨hA, hB⟩ | ⟨hA, hB⟩
    · rw [if_neg hB, if_neg (not_not_intro hA), if_neg hB]
      rw [set_getD_self arrs i [] hil]
    · rw [if_pos hB, if_pos hB]
  -- assemble the final filtered output
  have hnegmap : ((List.replicate dates.length false).set j true).map (fun b => !b)
      = (List.replicate dates.length true).set j false := by
    simp [List.map_set, List.map_replicate]
  show (boolIndex dates _, boolIndex _ _) = _
  rw [hfold, hbody]
  simp only [hnegmap]
  rw [boolIndex_set_false dates dates.length j (le_refl _),
    boolIndex_set_false _ dates.length j (by rw [List.length_set]; omega)]

/-! ## Helper lemmas for the structuring element of `expand_mask` -/

theorem nmid_nonneg (npix : ℚ) (hn : 0 ≤ npix) : 0 ≤ nmid npix :=
  Int.floor_nonneg.mpr hn

theorem coord_bounds (npix : ℚ) (hn : 0 ≤ npix) (a : ℤ)
    (h : ((a : ℚ) - nmid npix) ^ 2 ≤ npix ^ 2) :
    0 ≤ a ∧ a ≤ 2 * nmid npix := by
  have h1 : (a : ℚ) - nmid npix ≤ npix := by
    nlinarith [sq_nonneg ((a : ℚ) - nmid npix - npix), sq_nonneg ((a : ℚ) - nmid npix + npix)]
  have h2 : -npix ≤ (a : ℚ) - nmid npix := by
    nlinarith [sq_nonneg ((a : ℚ) - nmid npix - npix), sq_nonneg ((a : ℚ) - nmid npix + npix)]
  have hub : a - nmid npix ≤ nmid npix := by
    apply Int.le_floor.mpr
    push_cast
    linarith
  have hlb : nmid npix - a ≤ nmid npix := by
    apply Int.le_floor.mpr
    push_cast
    linarith
  omega

theorem dist_sq_le_of_mem_strucList (npix : ℚ) (a b : ℤ)
    (h : (a, b) ∈ strucList npix) :
    ((a : ℚ) - nmid npix) ^ 2 + ((b : ℚ) - nmid npix) ^ 2 ≤ npix ^ 2 := by
  unfold strucList at h
  rw [List.mem_flatMap] at h
  obtain ⟨ii, _, h⟩ := h
  rw [List.mem_flatMap] at h
  obtain ⟨jj, _, h⟩ := h
  by_cases hc : ((ii : ℚ) - nmid npix) ^ 2 + ((jj : ℚ) - nmid npix) ^ 2 ≤ npix ^ 2
  · rw [if_pos hc] at h
    simp only [List.mem_cons, List.not_mem_nil, or_false, Prod.mk.injEq] at h
    rcases h with ⟨rfl, rfl⟩ | ⟨rfl, rfl⟩
    · push_cast
      exact hc
    · push_cast
      linarith
  · rw [if_neg hc] at h
    simp at h

theorem mem_strucList_of_dist_sq (npix : ℚ) (hn : 0 ≤ npix) (a b : ℤ)
    (h : ((a : ℚ) - nmid npix) ^ 2 + ((b : ℚ) - nmid npix) ^ 2 ≤ npix ^ 2) :
    (a, b) ∈ strucList npix := by
  obtain ⟨ha0, ha2⟩ := coord_bounds npix hn a (by nlinarith [sq_nonneg ((b : ℚ) - nmid npix)])
  obtain ⟨hb0, hb2⟩ := coord_bounds npix hn b (by nlinarith [sq_nonneg ((a : ℚ) - nmid npix)])
  have hm0 : 0 ≤ nmid npix := nmid_nonneg npix hn
  have hmax : nmax npix = 2 * nmid npix + 1 := by unfold nmax; ring
  unfold strucList
  rw [List.mem_flatMap]
  by_cases hab : a ≤ b
  · refine ⟨a.toNat, by rw [List.mem_range]; omega, ?_⟩
    rw [List.mem_flatMap]
    refine ⟨b.toNat, by rw [List.mem_range'_1]; omega, ?_⟩
    have hcond : ((a.toNat : ℚ) - nmid npix) ^ 2 + ((b.toNat : ℚ) - nmid npix) ^ 2
        ≤ npix ^ 2 := by
      have e1 : ((a.toNat : ℕ) : ℚ) = ((a : ℤ) : ℚ) := by
        exact_mod_cast Int.toNat_of_nonneg ha0
      have e2 : ((b.toNat : ℕ) : ℚ) = ((b : ℤ) : ℚ) := by
        exact_mod_cast Int.toNat_of_nonneg hb0
      rw [e1, e2]
      exact h
    rw [if_pos hcond]
    simp [Int.toNat_of_nonneg ha0, Int.toNat_of_nonneg hb0]
  · refine ⟨b.toNat, by rw [List.mem_range]; omega, ?_⟩
    rw [List.mem_flatMap]
    refine ⟨a.toNat, by rw [List.mem_range'_1]; omega, ?_⟩
    have hcond : ((b.toNat : ℚ) - nmid npix) ^ 2 + ((a.toNat : ℚ) - nmid npix) ^ 2
        ≤ npix ^ 2 := by
      have e1 : ((a.toNat : ℕ) : ℚ) = ((a : ℤ) : ℚ) := by
        exact_mod_cast Int.toNat_of_nonneg ha0
      have e2 : ((b.toNat : ℕ) : ℚ) = ((b : ℤ) : ℚ) := by
        exact_mod_cast Int.toNat_of_nonneg hb0
      rw [e1, e2]
      linarith
    rw [if_pos hcond]
    simp [Int.toNat_of_nonneg ha0, Int.toNat_of_nonneg hb0]

/-- C5: mask expansion is monotonic in the buffer distance — every pixel set
to land by `expand_mask` with buffer `b` is also set to land with any buffer
`b' ≥ b ≥ 0` on the same input mask. -/
theorem expand_mask_monotone (m : BMask) (b b' : ℚ) (i j : ℤ)
    (h0 : 0 ≤ b) (hbb : b ≤ b')
    (h : expand_mask m b i j = true) : expand_mask m b' i j = true := by
  unfold expand_mask binary_dilation at h ⊢
  rw [List.any_eq_true] at h ⊢
  obtain ⟨p, hp, hm⟩ := h
  have hd := dist_sq_le_of_mem_strucList b p.1 p.2 hp
  have h0' : 0 ≤ b' := le_trans h0 hbb
  have e1 : ((p.1 - nmid b + nmid b' : ℤ) : ℚ) - nmid b' = (p.1 : ℚ) - nmid b := by
    push_cast
    ring
  have e2 : ((p.2 - nmid b + nmid b' : ℤ) : ℚ) - nmid b' = (p.2 : ℚ) - nmid b := by
    push_cast
    ring
  refine ⟨(p.1 - nmid b + nmid b', p.2 - nmid b + nmid b'),
    mem_strucList_of_dist_sq b' h0' _ _ ?_, ?_⟩
  · rw [e1, e2]
    exact le_trans hd (pow_le_pow_left₀ h0 hbb 2)
  · have f1 : i + (p.1 - nmid b + nmid b' - nmid b') = i + (p.1 - nmid b) := by ring
    have f2 : j + (p.2 - nmid b + nmid b' - nmid b') = j + (p.2 - nmid b) := by ring
    rw [f1, f2]
    exact hm

/-- Witness for C5: the pixel at offset 1 from a land pixel, set to land with
buffer 1, stays land with buffer 2. -/
theorem expand_mask_monotone_witness :
    expand_mask [[true, false, false]] 2 0 1 = true := by
  apply expand_mask_monotone [[true, false, false]] 1 2 0 1 (by norm_num) (by norm_num)
  unfold expand_mask binary_dilation
  rw [List.any_eq_true]
  have hmid : nmid 1 = 1 := by
    unfold nmid
    exact_mod_cast Int.floor_one
  refine ⟨(1, 0), mem_strucList_of_dist_sq 1 (by norm_num) 1 0 ?_, ?_⟩
  · rw [hmid]
    norm_num
  · rw [hmid]
    decide

/-- C6: the structuring kernel contains precisely the integer offsets from
its center whose squared Euclidean distance is at most `npix ^ 2` (the box
truncation to half-width `floor npix` excludes nothing), and consequently an
output pixel is land iff some land pixel of the input lies within Euclidean
distance `npix` of it. -/
theorem expand_mask_euclidean (npix : ℚ) (hn : 0 ≤ npix) :
    (∀ di dj : ℤ, struc npix (nmid npix + di) (nmid npix + dj) = true ↔
      (di : ℚ) ^ 2 + (dj : ℚ) ^ 2 ≤ npix ^ 2) ∧
    (∀ (m : BMask) (i j : ℤ), expand_mask m npix i j = true ↔
      ∃ p q : ℤ, maskAt m p q = true ∧
        ((p : ℚ) - i) ^ 2 + ((q : ℚ) - j) ^ 2 ≤ npix ^ 2) := by
  constructor
  · intro di dj
    unfold struc
    rw [decide_eq_true_eq]
    have e1 : ((nmid npix + di : ℤ) : ℚ) - nmid npix = (di : ℚ) := by
      push_cast
      ring
    have e2 : ((nmid npix + dj : ℤ) : ℚ) - nmid npix = (dj : ℚ) := by
      push_cast
      ring
    constructor
    · intro h
      have := dist_sq_le_of_mem_strucList npix _ _ h
      rw [e1, e2] at this
      exact this
    · intro h
      apply mem_strucList_of_dist_sq npix hn
      rw [e1, e2]
      exact h
  · intro m i j
    unfold expand_mask binary_dilation
    rw [List.any_eq_true]
    constructor
    · rintro ⟨p, hp, hm⟩
      refine ⟨i + (p.1 - nmid npix), j + (p.2 - nmid npix), hm, ?_⟩
      have hd := dist_sq_le_of_mem_strucList npix p.1 p.2 hp
      have e1 : ((i + (p.1 - nmid npix) : ℤ) : ℚ) - i = (p.1 : ℚ) - nmid npix := by
        push_cast
        ring
      have e2 : ((j + (p.2 - nmid npix) : ℤ) : ℚ) - j = (p.2 : ℚ) - nmid npix := by
        push_cast
        ring
      rw [e1, e2]
      exact hd
    · rintro ⟨p, q, hm, hd⟩
      refine ⟨(nmid npix + (p - i), nmid npix + (q - j)),
        mem_strucList_of_dist_sq npix hn _ _ ?_, ?_⟩
      · have e1 : ((nmid npix + (p - i) : ℤ) : ℚ) - nmid npix = (p : ℚ) - i := by
          push_cast
          ring
        have e2 : ((nmid npix + (q - j) : ℤ) : ℚ) - nmid npix = (q : ℚ) - j := by
          push_cast
          ring
        rw [e1, e2]
        exact hd
      · have f1 : i + (nmid npix + (p - i) - nmid npix) = p := by ring
        have f2 : j + (nmid npix + (q - j) - nmid npix) = q := by ring
        rw [f1, f2]
        exact hm

/-- Witness for C6 at buffer 1: the offset (0, 1) is in the kernel since
`0 + 1 ≤ 1`, and the pixel right of a land pixel is land in the dilated
mask. -/
theorem expand_mask_euclidean_witness :
    struc 1 (nmid 1 + 0) (nmid 1 + 1) = true ∧
    expand_mask [[true]] 1 0 1 = true :=
  ⟨((expand_mask_euclidean 1 (by norm_num)).1 0 1).mpr (by norm_num),
   ((expand_mask_euclidean 1 (by norm_num)).2 [[true]] 0 1).mpr
     ⟨0, 0, by decide, by norm_num⟩⟩

/-- C4: date deduplication is idempotent — applying the removal cell to its
own output (whose dates are pairwise distinct, so no duplicate is found)
returns that output unchanged. -/
theorem dedup_idempotent (dates : List String) (arrs : List Raster) :
    removeDuplicateDates (removeDuplicateDates dates arrs).1
        (removeDuplicateDates dates arrs).2
      = removeDuplicateDates dates arrs := by
  have hnd := nodup_dedup_dates dates arrs
  have hlen : (removeDuplicateDates dates arrs).2.length
      ≤ (removeDuplicateDates dates arrs).1.length := by
    rw [removeDuplicateDates_eq]
    show (boolIndex (((List.range' 1 (dates.length - 1)).foldl (dedupBody dates)
        (arrs, List.replicate dates.length false)).1)
        ((((List.range' 1 (dates.length - 1)).foldl (dedupBody dates)
        (arrs, List.replicate dates.length false)).2).map (fun b => !b))).length
      ≤ (boolIndex dates
        ((((List.range' 1 (dates.length - 1)).foldl (dedupBody dates)
        (arrs, List.replicate dates.length false)).2).map (fun b => !b))).length
    have hnegLen : ((((List.range' 1 (dates.length - 1)).foldl (dedupBody dates)
        (arrs, List.replicate dates.length false)).2).map (fun b => !b)).length
        = dates.length := by
      rw [List.length_map, foldl_dedupBody_snd, foldl_remStep_length,
        List.length_replicate]
    rw [boolIndex_length_eq_count dates _ (le_of_eq hnegLen)]
    exact boolIndex_length_le_count _ _
  rw [removeDuplicateDates_of_nodup _ _ hnd hlen]

/-- Witness for C3, the spec's end-to-end scenario: a 2-entry stack with
identical dates, the earlier raster all-missing and the later fully valid,
deduplicates to the single fully valid raster under that date. -/
theorem dedup_exactly_one_fully_valid_witness :
    removeDuplicateDates ["d", "d"] [[none], [some 1]] = (["d"], [[some 1]]) := by
  have h := dedup_exactly_one_fully_valid ["d", "d"] [[none], [some 1]] 0 1
    (by decide) (by decide) (by decide) (by decide)
    (by decide) (by decide)
  simpa using h

end AEWS
